import Mathlib

set_option linter.unusedVariables false

/-! Verification of the content-extraction and link-resolution pipeline of
gmailmd.py. Python strings are modelled as `List Char`; the network, the
filesystem and tldextract are modelled as explicit oracle parameters. -/

namespace Gmailmd

/-- Character list of a string literal. -/
def S (s : String) : List Char := s.data

/-- Python ASCII whitespace, as accepted by str.strip and the regex class \s. -/
def isWs (c : Char) : Bool :=
  c = ' ' || c = '\t' || c = '\n' || c = '\r' || c = '\x0b' || c = '\x0c'

/-- Python str.lower, modelled on ASCII letters. -/
def pyToLower : Char → Char
  | 'A' => 'a' | 'B' => 'b' | 'C' => 'c' | 'D' => 'd' | 'E' => 'e' | 'F' => 'f'
  | 'G' => 'g' | 'H' => 'h' | 'I' => 'i' | 'J' => 'j' | 'K' => 'k' | 'L' => 'l'
  | 'M' => 'm' | 'N' => 'n' | 'O' => 'o' | 'P' => 'p' | 'Q' => 'q' | 'R' => 'r'
  | 'S' => 's' | 'T' => 't' | 'U' => 'u' | 'V' => 'v' | 'W' => 'w' | 'X' => 'x'
  | 'Y' => 'y' | 'Z' => 'z' | c => c

/-- Python str.lower on a whole string. -/
def pyLower (l : List Char) : List Char := l.map pyToLower

/-- Python str.lstrip (no argument): drop leading whitespace. -/
def lstrip (l : List Char) : List Char := l.dropWhile isWs

/-- Python str.rstrip (no argument): drop trailing whitespace. -/
def rstrip (l : List Char) : List Char := (l.reverse.dropWhile isWs).reverse

/-- Python str.strip (no argument). -/
def pyStrip (l : List Char) : List Char := rstrip (lstrip l)

/-- Python str.split(sep) for a one-character separator; on the empty string it
returns a list holding one empty string, like Python. -/
def pySplitOn (sep : Char) : List Char → List (List Char)
  | [] => [[]]
  | c :: cs =>
    if c = sep then
      [] :: pySplitOn sep cs
    else
      match pySplitOn sep cs with
      | [] => [[c]]
      | piece :: rest => (c :: piece) :: rest

/-- The word-character class of the regex \w, modelled on ASCII. -/
def isWordChar (c : Char) : Bool := c.isAlphanum || c = '_'

/-- True when the string contains three consecutive newline characters, hence
when it contains a run of three or more newlines. -/
def containsNNN : List Char → Bool
  | a :: b :: c :: rest => (a = '\n' && b = '\n' && c = '\n') || containsNNN (b :: c :: rest)
  | _ => false

/-- Whether a string starts with two newline characters. -/
def nextTwoNl : List Char → Bool
  | a :: b :: _ => a = '\n' && b = '\n'
  | _ => false

/-- The part of a string after its last newline. -/
def afterLastNl (l : List Char) : List Char :=
  (l.reverse.takeWhile (fun c => !(c = '\n'))).reverse

/-- The cleanup re.sub(r'\n\s*\n', '\n\n', s) of html_to_markdown: scanning
left to right, at a newline whose following maximal whitespace run contains
another newline, the stretch from this newline to the last newline of the run
is replaced by exactly two newlines, and scanning resumes after the match. -/
def subnn : List Char → List Char
  | [] => []
  | c :: cs =>
    if c = '\n' && (cs.takeWhile isWs).contains '\n' then
      '\n' :: '\n' :: (afterLastNl (cs.takeWhile isWs) ++ subnn (cs.dropWhile isWs))
    else
      c :: subnn cs
termination_by l => l.length
decreasing_by
  · calc (cs.dropWhile isWs).length ≤ cs.length := (List.dropWhile_sublist isWs).length_le
      _ < (c :: cs).length := by simp
  · simp

theorem containsNNN_cons (c : Char) (l : List Char) :
    containsNNN (c :: l) = ((decide (c = '\n') && nextTwoNl l) || containsNNN l) := by
  rcases l with _ | ⟨a, _ | ⟨b, t⟩⟩ <;> simp [containsNNN, nextTwoNl, Bool.and_assoc]

theorem containsNNN_tail {c : Char} {l : List Char}
    (h : containsNNN (c :: l) = false) : containsNNN l = false := by
  rw [containsNNN_cons] at h
  exact (Bool.or_eq_false_iff.mp h).2

theorem nextTwoNl_append {m t : List Char} (h : nextTwoNl m = true) :
    nextTwoNl (m ++ t) = true := by
  rcases m with _ | ⟨a, _ | ⟨b, r⟩⟩ <;> simp_all [nextTwoNl]

theorem containsNNN_append_left {m t : List Char}
    (h : containsNNN (m ++ t) = false) : containsNNN m = false := by
  induction m with
  | nil => simp [containsNNN]
  | cons x m ih =>
    rw [List.cons_append, containsNNN_cons] at h
    rcases Bool.or_eq_false_iff.mp h with ⟨h1, h2⟩
    rw [containsNNN_cons, ih h2, Bool.or_false]
    rcases Bool.and_eq_false_iff.mp h1 with h1 | h1
    · simp [h1]
    · cases hm : nextTwoNl m
      · simp
      · have := nextTwoNl_append (t := t) hm
        simp [h1] at this

theorem containsNNN_append_right {s m : List Char}
    (h : containsNNN (s ++ m) = false) : containsNNN m = false := by
  induction s with
  | nil => exact h
  | cons x s ih => exact ih (containsNNN_tail h)

theorem containsNNN_no_nl_append {xs m : List Char}
    (hx : ∀ a ∈ xs, ¬(a = '\n')) :
    containsNNN (xs ++ m) = containsNNN m := by
  induction xs with
  | nil => rfl
  | cons x xs ih =>
    rw [List.cons_append, containsNNN_cons, ih (fun a ha => hx a (List.mem_cons_of_mem _ ha))]
    have : ¬(x = '\n') := hx x (List.mem_cons_self _ _)
    simp [this]

theorem mem_afterLastNl {l : List Char} {a : Char} (h : a ∈ afterLastNl l) :
    ¬(a = '\n') := by
  unfold afterLastNl at h
  rw [List.mem_reverse] at h
  have := List.mem_takeWhile_imp h
  simpa using this

theorem dropWhile_head_not {p : Char → Bool} {l : List Char} {a : Char}
    (h : (l.dropWhile p).head? = some a) : p a = false := by
  have := List.head?_dropWhile_not p l
  rw [h] at this
  simpa using this

theorem subnn_cons_of_ne {c : Char} (cs : List Char) (h : ¬(c = '\n')) :
    subnn (c :: cs) = c :: subnn cs := by
  rw [subnn]
  simp [h]

theorem nextTwoNl_of_head_ne {z : List Char}
    (h : ∀ a, z.head? = some a → ¬(a = '\n')) :
    nextTwoNl z = false ∧ nextTwoNl ('\n' :: z) = false := by
  rcases z with _ | ⟨a, t⟩
  · simp [nextTwoNl]
  · have ha : ¬(a = '\n') := h a rfl
    constructor
    · rcases t with _ | ⟨b, r⟩ <;> simp [nextTwoNl, ha]
    · simp [nextTwoNl, ha]

theorem subnn_head_ne_nl {l : List Char}
    (hl : ∀ a, l.head? = some a → isWs a = false) :
    ∀ a, (subnn l).head? = some a → ¬(a = '\n') := by
  intro a ha
  rcases l with _ | ⟨c, cs⟩
  · simp [subnn] at ha
  · have hc : isWs c = false := hl c rfl
    have hcn : ¬(c = '\n') := by
      intro h; rw [h] at hc; simp [isWs] at hc
    rw [subnn_cons_of_ne cs hcn] at ha
    simp only [List.head?_cons, Option.some.injEq] at ha
    exact ha ▸ hcn

/-- The cleanup never leaves three consecutive newlines. -/
theorem containsNNN_subnn (l : List Char) : containsNNN (subnn l) = false := by
  induction l using subnn.induct with
  | case1 => simp [subnn, containsNNN]
  | case2 c cs h ih =>
    rw [subnn, if_pos h]
    set W := cs.takeWhile isWs with hW
    set R := cs.dropWhile isWs with hR
    have hRhead : ∀ a, R.head? = some a → isWs a = false := by
      intro a ha; exact dropWhile_head_not ha
    have hz : ∀ a, (afterLastNl W ++ subnn R).head? = some a → ¬(a = '\n') := by
      intro a ha
      rw [List.head?_append] at ha
      rcases hA : (afterLastNl W).head? with _ | b
      · rw [hA] at ha; simp at ha
        exact subnn_head_ne_nl hRhead a ha
      · rw [hA] at ha; simp at ha
        rw [← ha]
        exact mem_afterLastNl (List.mem_of_mem_head? hA)
    have hcz : containsNNN (afterLastNl W ++ subnn R) = false := by
      rw [containsNNN_no_nl_append (fun a ha => mem_afterLastNl ha)]
      exact ih
    rw [containsNNN_cons, containsNNN_cons, hcz]
    rcases nextTwoNl_of_head_ne hz with ⟨h1, h2⟩
    simp [h1, h2]
  | case3 c cs h ih =>
    rw [subnn, if_neg h]
    rw [containsNNN_cons, ih, Bool.or_false]
    by_cases hc : c = '\n'
    · subst hc
      have hnc : (cs.takeWhile isWs).contains '\n' = false := by
        cases hcc : (cs.takeWhile isWs).contains '\n'
        · rfl
        · exact absurd (by rw [hcc]; simp) h
      have hhead : ∀ a, (subnn cs).head? = some a → ¬(a = '\n') := by
        intro a ha
        rcases cs with _ | ⟨d, ds⟩
        · simp [subnn] at ha
        · have hdn : ¬(d = '\n') := by
            intro hd
            subst hd
            have : (('\n' :: ds).takeWhile isWs).contains '\n' = true := by
              rw [List.takeWhile_cons_of_pos (by simp [isWs])]
              simp
            rw [this] at hnc; exact absurd hnc (by simp)
          rw [subnn_cons_of_ne ds hdn] at ha
          simp only [List.head?_cons, Option.some.injEq] at ha
          exact ha ▸ hdn
      rcases nextTwoNl_of_head_ne hhead with ⟨h1, _⟩
      simp [h1]
    · simp [hc]

theorem containsNNN_dropWhile {p : Char → Bool} {l : List Char}
    (h : containsNNN l = false) : containsNNN (l.dropWhile p) = false := by
  induction l with
  | nil => simpa using h
  | cons c cs ih =>
    rw [List.dropWhile_cons]
    by_cases hp : p c = true
    · simp only [hp, if_true]
      exact ih (containsNNN_tail h)
    · simp only [hp, if_false]
      exact h

theorem rstrip_append (l : List Char) : rstrip l ++ (l.reverse.takeWhile isWs).reverse = l := by
  unfold rstrip
  rw [← List.reverse_append, List.takeWhile_append_dropWhile, List.reverse_reverse]

theorem containsNNN_rstrip {l : List Char}
    (h : containsNNN l = false) : containsNNN (rstrip l) = false := by
  have := rstrip_append l
  rw [← this] at h
  exact containsNNN_append_left h

theorem containsNNN_pyStrip {l : List Char}
    (h : containsNNN l = false) : containsNNN (pyStrip l) = false :=
  containsNNN_rstrip (containsNNN_dropWhile h)

theorem dropWhile_dropWhile_self (p : Char → Bool) (l : List Char) :
    (l.dropWhile p).dropWhile p = l.dropWhile p := by
  induction l with
  | nil => rfl
  | cons c cs ih =>
    rw [List.dropWhile_cons]
    by_cases hp : p c = true
    · simp only [hp, if_true]; exact ih
    · simp [hp, List.dropWhile_cons]

theorem rstrip_rstrip (l : List Char) : rstrip (rstrip l) = rstrip l := by
  unfold rstrip
  rw [List.reverse_reverse, dropWhile_dropWhile_self]

theorem head_rstrip {m : List Char} {a : Char}
    (h : (rstrip m).head? = some a) : m.head? = some a := by
  have := rstrip_append m
  rcases hr : rstrip m with _ | ⟨b, r⟩
  · rw [hr] at h; simp at h
  · rw [hr] at h this
    simp at h
    rw [← this, List.cons_append]
    simp [h]

theorem lstrip_of_head {l : List Char}
    (h : ∀ a, l.head? = some a → isWs a = false) : lstrip l = l := by
  rcases l with _ | ⟨c, cs⟩
  · rfl
  · unfold lstrip
    rw [List.dropWhile_cons]
    simp [h c rfl]

theorem pyStrip_idem (l : List Char) : pyStrip (pyStrip l) = pyStrip l := by
  unfold pyStrip
  have hcomm : lstrip (rstrip (lstrip l)) = rstrip (lstrip l) := by
    apply lstrip_of_head
    intro a ha
    exact dropWhile_head_not (head_rstrip ha)
  rw [hcomm, rstrip_rstrip]

/-! ## urllib.parse.urlparse, reduced to the parts the program inspects -/

/-- Valid scheme characters after the first (letters, digits, +, -, .). -/
def isSchemeChar (c : Char) : Bool := c.isAlphanum || c = '+' || c = '-' || c = '.'

/-- Whether a string is a syntactically valid URL scheme. -/
def validScheme : List Char → Bool
  | [] => false
  | c :: cs => c.isAlpha && cs.all isSchemeChar

/-- urlparse, reduced to the (scheme, netloc) pair: split a valid scheme off
at the first colon, then read the network location after a leading //. -/
def pyUrlparse (u : List Char) : List Char × List Char :=
  let pre := u.takeWhile (fun c => !(c = ':'))
  let sr :=
    match u.dropWhile (fun c => !(c = ':')) with
    | ':' :: r => if validScheme pre then (pyLower pre, r) else (([] : List Char), u)
    | _ => (([] : List Char), u)
  match sr.2 with
  | '/' :: '/' :: r => (sr.1, r.takeWhile (fun c => !(c = '/' || c = '?' || c = '#')))
  | _ => (sr.1, [])

/-- is_valid_url: the string parses with both a scheme and a netloc. -/
def is_valid_url (u : List Char) : Bool :=
  !(pyUrlparse u).1.isEmpty && !(pyUrlparse u).2.isEmpty

/-- Python substring containment a in b (the `in` operator on strings). -/
def isSubOf (a : List Char) : List Char → Bool
  | [] => a.isPrefixOf []
  | c :: cs => a.isPrefixOf (c :: cs) || isSubOf a cs

/-! ## UrlPolicy: anchor-text exclusion -/

/-- Whether the character at index i of t is a word character (out of range
counts as not a word character). -/
def wordAt (t : List Char) (i : Nat) : Bool :=
  match t[i]? with
  | some c => isWordChar c
  | none => false

/-- The word-boundary assertion \b between positions i-1 and i of t. -/
def bnd (t : List Char) (i : Nat) : Bool :=
  (if i = 0 then false else wordAt t (i - 1)) != wordAt t i

/-- re.search(r'\b' + re.escape(e) + r'\b', t) finds a match, for a literal
phrase e: e occurs at some position with word boundaries on both sides. -/
def wbMatch (e t : List Char) : Bool :=
  (List.range (t.length + 1)).any
    (fun i => e.isPrefixOf (t.drop i) && bnd t i && bnd t (i + e.length))

/-- should_exclude_link_text: lowercase and trim both sides, then accept on
exact equality, or on substring containment confirmed as a whole-word match. -/
def should_exclude_link_text (texts : List (List Char)) (text : List Char) : Bool :=
  let textLower := pyStrip (pyLower text)
  texts.any (fun excluded =>
    let exLower := pyStrip (pyLower excluded)
    exLower == textLower || (isSubOf exLower textLower && wbMatch exLower textLower))

/-- Claim C7's predicate, written from the claim's words: the anchor text
equals, or contains as a whole-word-phrase match, some configured excluded
phrase, case-insensitively (the claim does not trim either side). -/
def claimExcludedByText (texts : List (List Char)) (text : List Char) : Bool :=
  texts.any (fun excluded =>
    pyLower excluded == pyLower text || wbMatch (pyLower excluded) (pyLower text))

/-- Claim C7's predicate amended by the counterexample: both the anchor text
and the phrase are trimmed (lowercased) before the equality and whole-word
tests, as the source does. -/
def claimExcludedByTextTrimmed (texts : List (List Char)) (text : List Char) : Bool :=
  texts.any (fun excluded =>
    pyStrip (pyLower excluded) == pyStrip (pyLower text) ||
      wbMatch (pyStrip (pyLower excluded)) (pyStrip (pyLower text)))

/-- EXCLUDED_LINK_TEXTS when the environment variable is unset: splitting the
empty string on commas yields one empty entry. -/
def defaultExcludedLinkTexts : List (List Char) :=
  (pySplitOn ',' (S "")).map pyStrip

/-! ## UrlPolicy: blocked domains -/

/-- The (subdomain, domain, suffix) split produced by tldextract for a URL;
tldextract itself is a library outside the embedded code, so functions that
need it take an extraction oracle. -/
structure Extracted where
  subdomain : List Char
  domain : List Char
  suffix : List Char

/-- Python sep.join(pieces). -/
def joinWith (sep : List Char) : List (List Char) → List Char
  | [] => []
  | [x] => x
  | x :: y :: rest => x ++ sep ++ joinWith sep (y :: rest)

/-- is_blocked_domain, applied to the tldextract result of the URL: check
domain.suffix, then every level of the subdomain joined onto it. -/
def is_blocked_domain (blocked : List (List Char)) (e : Extracted) : Bool :=
  let dom := e.domain ++ '.' :: e.suffix
  let subdomains := pySplitOn '.' e.subdomain
  blocked.contains dom ||
    (List.range subdomains.length).any (fun i =>
      blocked.contains (joinWith ['.'] (subdomains.drop i ++ [dom])))

/-- Claim C4's predicate, written from the claim's words: the registrable
domain, or a suffix of the full hostname ending at the registrable domain,
appears in the blocked set. -/
def claimBlockedDomain (blocked : List (List Char)) (e : Extracted) : Bool :=
  let dom := e.domain ++ '.' :: e.suffix
  let cands :=
    if e.subdomain.isEmpty then [dom]
    else dom :: (List.range (pySplitOn '.' e.subdomain).length).map
      (fun i => joinWith ['.'] ((pySplitOn '.' e.subdomain).drop i ++ [dom]))
  cands.any (blocked.contains ·)

/-! ## UrlPolicy: redirect probe -/

/-- Outcome of the redirect-probe HEAD request (requests.head without
following redirects): a transport failure, or a response carrying its
redirect flag and optional Location header. -/
inductive Probe where
  | failure
  | response (isRedirect : Bool) (location : Option (List Char))

/-- is_redirect_to_blocked_domain, with the network and tldextract as
oracles: on transport failure the exception is caught and False returned. -/
def is_redirect_to_blocked_domain (blocked : List (List Char))
    (ext : List Char → Extracted) (probe : List Char → Probe) (url : List Char) : Bool :=
  match probe url with
  | .failure => false
  | .response isRedir loc =>
    if isRedir then
      match loc with
      | some location => is_blocked_domain blocked (ext location)
      | none => false
    else false

/-! ## UrlPolicy: arXiv transform -/

/-- Match a regex literal in which '.' is the wildcard (the source uses the
pattern arxiv.org/abs/ unescaped), returning the rest of the input. -/
def matchWild : List Char → List Char → Option (List Char)
  | [], rest => some rest
  | _ :: _, [] => none
  | p :: ps, c :: cs => if p = '.' || p = c then matchWild ps cs else none

/-- Greedy \d+\.\d+ at the start of t, returning the two digit groups. -/
def digitsDotDigits (t : List Char) : Option (List Char × List Char) :=
  if (t.takeWhile Char.isDigit).isEmpty then none
  else
    match t.dropWhile Char.isDigit with
    | '.' :: r =>
      if (r.takeWhile Char.isDigit).isEmpty then none
      else some (t.takeWhile Char.isDigit, r.takeWhile Char.isDigit)
    | _ => none

/-- Try (arxiv.org/abs/|arxiv.org/pdf/)(\d+\.\d+) at the start of t. -/
def arxivTryHere (t : List Char) : Option (List Char × List Char) :=
  (matchWild (S "arxiv.org/abs/") t >>= digitsDotDigits) <|>
    (matchWild (S "arxiv.org/pdf/") t >>= digitsDotDigits)

/-- re.search of the arXiv pattern: the leftmost position where it matches. -/
def arxivSearch : List Char → Option (List Char × List Char)
  | [] => none
  | c :: cs => arxivTryHere (c :: cs) <|> arxivSearch cs

/-- transform_arxiv_url: when the netloc contains arxiv.org and the abstract
or PDF pattern occurs, rewrite to the canonical PDF URL with the extracted
identifier; otherwise return the URL unchanged with no identifier. -/
def transform_arxiv_url (url : List Char) : List Char × Option (List Char) :=
  if isSubOf (S "arxiv.org") (pyUrlparse url).2 then
    match arxivSearch url with
    | some (d1, d2) =>
      let arxivId := d1 ++ '.' :: d2
      (S "https://arxiv.org/pdf/" ++ arxivId ++ S ".pdf", some arxivId)
    | none => (url, none)
  else (url, none)

/-! ## MarkdownRenderer: the parsed HTML tree and process_tag -/

/-- A node of the parsed HTML tree: a NavigableString, or a tag with its
name, attribute bindings and children. -/
inductive Node where
  | text (s : List Char)
  | elem (name : List Char) (attrs : List (List Char × List Char)) (children : List Node)

/-- tag.get(key): the first binding of the attribute, if any. -/
def attrGet (attrs : List (List Char × List Char)) (key : List Char) : Option (List Char) :=
  match attrs.find? (fun kv => kv.1 == key) with
  | some kv => some kv.2
  | none => none

/-- tag.get(key, ''): attribute lookup with the empty-string default. -/
def attrGetD (attrs : List (List Char × List Char)) (key : List Char) : List Char :=
  (attrGet attrs key).getD []

/-- Python str() of an href that may be None, as interpolated by f-strings. -/
def showOptHref : Option (List Char) → List Char
  | some h => h
  | none => S "None"

/-- Python truthiness of tag.get('href'): present and non-empty. -/
def truthy : Option (List Char) → Bool
  | some h => !h.isEmpty
  | none => false

/-- tag.find('img'): attributes of the first descendant img tag in document
order, searching depth first. -/
def findImg : List Node → Option (List (List Char × List Char))
  | [] => none
  | .text _ :: rest => findImg rest
  | .elem name attrs children :: rest =>
    if name = S "img" then some attrs
    else
      match findImg children with
      | some a => some a
      | none => findImg rest

/-- Attribute lists of all descendant img tags, in document order. -/
def imgAttrsPre : List Node → List (List (List Char × List Char))
  | [] => []
  | .text _ :: rest => imgAttrsPre rest
  | .elem name attrs children :: rest =>
    (if name = S "img" then [attrs] else []) ++ imgAttrsPre children ++ imgAttrsPre rest

/-- The number of direct img children in a node list. -/
def imgChildCount : List Node → Nat
  | [] => 0
  | .text _ :: rest => imgChildCount rest
  | .elem name _ _ :: rest => (if name = S "img" then 1 else 0) + imgChildCount rest

/-- Decimal digits of a natural number, as rendered by Python str(). -/
def natToChars (n : Nat) : List Char := (Nat.repr n).data

/-- Rendering of a heading of the given level. -/
def headingOut (level : Nat) (content : List Char) : List Char :=
  S "\n\n" ++ List.replicate level '#' ++ ' ' :: pyStrip content ++ S "\n\n"

/-- Rendering of a ul/ol element from the rendered contents of its direct li
children: one line per item, * or 1-based numeric markers, joined by
newlines and surrounded by single newlines. -/
def listOut (ordered : Bool) (items : List (List Char)) : List Char :=
  let lines := items.enum.map (fun ic =>
    (if ordered then natToChars (ic.1 + 1) ++ ['.'] else ['*']) ++ ' ' :: pyStrip ic.2)
  '\n' :: List.intercalate ['\n'] lines ++ ['\n']

mutual

/-- process_tag: render one node to markdown. -/
def processTag : Node → List Char
  | .text s => s
  | .elem name attrs children =>
    if name = S "a" then
      match findImg children with
      | some imgAttrs =>
        S "[![" ++ attrGetD imgAttrs (S "alt") ++ S "](" ++ attrGetD imgAttrs (S "src") ++
          S ")](" ++ showOptHref (attrGet attrs (S "href")) ++ S ")"
      | none =>
        if truthy (attrGet attrs (S "href")) then
          '[' :: processNodes children ++ S "](" ++ (attrGet attrs (S "href")).getD [] ++ S ")"
        else processNodes children
    else if name = S "img" then
      S "![" ++ attrGetD attrs (S "alt") ++ S "](" ++ attrGetD attrs (S "src") ++ S ")"
    else if name = S "h1" then headingOut 1 (processNodes children)
    else if name = S "h2" then headingOut 2 (processNodes children)
    else if name = S "h3" then headingOut 3 (processNodes children)
    else if name = S "h4" then headingOut 4 (processNodes children)
    else if name = S "h5" then headingOut 5 (processNodes children)
    else if name = S "h6" then headingOut 6 (processNodes children)
    else if name = S "p" then S "\n\n" ++ processNodes children ++ S "\n\n"
    else if name = S "ul" then listOut false (liContents children)
    else if name = S "ol" then listOut true (liContents children)
    else if name = S "br" then ['\n']
    else processNodes children

/-- The ''.join over tag.contents of process_tag applied to each child. -/
def processNodes : List Node → List Char
  | [] => []
  | n :: rest => processTag n ++ processNodes rest

/-- Rendered contents of each direct li child, in order (the find_all('li',
recursive=False) loop). -/
def liContents : List Node → List (List Char)
  | [] => []
  | .text _ :: rest => liContents rest
  | .elem name _ children :: rest =>
    if name = S "li" then processNodes children :: liContents rest
    else liContents rest

end

/-- html_to_markdown on an already parsed tree: render, collapse whitespace
runs holding several newlines, and strip the ends. -/
def html_to_markdown (root : Node) : List Char :=
  pyStrip (subnn (processTag root))

/-! ## LinkExtractor -/

/-- Try the markdown-link pattern \[([^\]]+)\]\(([^\)]+)\) at the start of t,
returning the anchor text, the url, and the input after the match. The
greedy character classes are each followed by a forced literal, so no
backtracking arises. -/
def linkHere (t : List Char) : Option ((List Char × List Char) × List Char) :=
  match t with
  | '[' :: r =>
    match r.dropWhile (fun c => !(c = ']')) with
    | ']' :: '(' :: r2 =>
      match r2.dropWhile (fun c => !(c = ')')) with
      | ')' :: r3 =>
        if (r.takeWhile (fun c => !(c = ']'))).isEmpty ||
            (r2.takeWhile (fun c => !(c = ')'))).isEmpty then none
        else some ((r.takeWhile (fun c => !(c = ']')), r2.takeWhile (fun c => !(c = ')'))), r3)
      | _ => none
    | _ => none
  | _ => none

theorem linkHere_length {t rest : List Char} {p : List Char × List Char}
    (h : linkHere t = some (p, rest)) : rest.length < t.length := by
  unfold linkHere at h
  split at h
  case h_2 => simp at h
  case h_1 r =>
  split at h
  case h_2 => simp at h
  case h_1 r2 heq1 =>
  split at h
  case h_2 => simp at h
  case h_1 r3 heq2 =>
  split at h
  case isTrue => simp at h
  case isFalse =>
    have h1 : (r.dropWhile (fun c => !(c = ']'))).length ≤ r.length :=
      (List.dropWhile_sublist _).length_le
    rw [heq1] at h1
    have h2 : (r2.dropWhile (fun c => !(c = ')'))).length ≤ r2.length :=
      (List.dropWhile_sublist _).length_le
    rw [heq2] at h2
    simp only [Option.some.injEq, Prod.mk.injEq] at h
    have hr : rest = r3 := h.2.symm
    subst hr
    simp only [List.length_cons] at h1 h2 ⊢
    omega

/-- re.findall of the link pattern with its (?<!!) lookbehind: scan left to
right remembering the previous character, collecting non-overlapping
matches. -/
def findLinks (prev : Option Char) : List Char → List (List Char × List Char)
  | [] => []
  | c :: cs =>
    if c = '[' && !(prev == some '!') then
      match hm : linkHere (c :: cs) with
      | some (tu, rest) => tu :: findLinks (some ')') rest
      | none => findLinks (some c) cs
    else findLinks (some c) cs
termination_by l => l.length
decreasing_by
  · exact linkHere_length hm
  · simp
  · simp

/-- Anchor texts starting (after a strip) with the image sigil are skipped. -/
def startsBang (t : List Char) : Bool :=
  match pyStrip t with
  | '!' :: _ => true
  | _ => false

/-- The policy configuration and the external oracles (tldextract, the
redirect probe) consumed by the extraction pipeline. -/
structure Ctx where
  excludedTexts : List (List Char)
  blockedDomains : List (List Char)
  ext : List Char → Extracted
  probe : List Char → Probe

/-- The per-candidate filter chain of extract_links, in source order. -/
def survives (cx : Ctx) (tu : List Char × List Char) : Bool :=
  !(startsBang tu.1) && is_valid_url tu.2 &&
    !(should_exclude_link_text cx.excludedTexts tu.1) &&
    !(is_blocked_domain cx.blockedDomains (cx.ext tu.2)) &&
    !(is_redirect_to_blocked_domain cx.blockedDomains cx.ext cx.probe tu.2)

/-- The filter-and-deduplicate loop of extract_links, with its accumulator of
kept candidates. -/
def extractLoop (cx : Ctx) : List (List Char × List Char) → List (List Char × List Char) →
    List (List Char × List Char)
  | [], acc => acc
  | (text, url) :: rest, acc =>
    if startsBang text then extractLoop cx rest acc
    else if is_valid_url url && !(should_exclude_link_text cx.excludedTexts text) then
      if !(is_blocked_domain cx.blockedDomains (cx.ext url)) then
        if !(is_redirect_to_blocked_domain cx.blockedDomains cx.ext cx.probe url) then
          if (acc.map Prod.snd).contains url then extractLoop cx rest acc
          else extractLoop cx rest (acc ++ [(text, url)])
        else extractLoop cx rest acc
      else extractLoop cx rest acc
    else extractLoop cx rest acc

/-- extract_links. -/
def extract_links (cx : Ctx) (content : List Char) : List (List Char × List Char) :=
  extractLoop cx (findLinks none content) []

/-! ## CrawlOrchestrator -/

/-- Result of fetch_and_convert_to_markdown: the (content, kind, final_url)
triple collapses into these three cases. -/
inductive FetchR where
  | failure
  | pdf (finalUrl : List Char)
  | page (content : List Char) (finalUrl : List Char)

/-- The orchestrator's collaborators: the extraction context plus the
fetcher and the success oracles of the PDF download and the file write. -/
structure Env where
  cx : Ctx
  fetch : List Char → FetchR
  pdfOk : List Char → Bool
  writeOk : List Char → Bool

/-- set.add on the visited set. -/
def addVisited (url : List Char) (visited : List (List Char)) : List (List Char) :=
  if visited.contains url then visited else visited ++ [url]

/-- The candidate loop of process_markdown_links: returns the final visited
set and the list of URLs handed to the fetcher, in order. The source adds a
URL to processed_links only after a successful download or write. -/
def processLoop (env : Env) : List (List Char × List Char) → List (List Char) →
    List (List Char) × List (List Char)
  | [], visited => (visited, [])
  | (text, url) :: rest, visited =>
    if startsBang text then processLoop env rest visited
    else if visited.contains url then processLoop env rest visited
    else
      match env.fetch url with
      | .failure =>
        let r := processLoop env rest visited
        (r.1, url :: r.2)
      | .pdf finalUrl =>
        let v := if env.pdfOk finalUrl then addVisited url visited else visited
        let r := processLoop env rest v
        (r.1, url :: r.2)
      | .page _ _ =>
        let v := if env.writeOk url then addVisited url visited else visited
        let r := processLoop env rest v
        (r.1, url :: r.2)

/-- process_markdown_links: extract the links of the content, then run the
candidate loop against the shared visited set. -/
def process_markdown_links (env : Env) (content : List Char)
    (visited : List (List Char)) : List (List Char) × List (List Char) :=
  processLoop env (extract_links env.cx content) visited

/-- Whether processing the URL persists a file (PDF downloaded or page
written), which is exactly when the source adds it to processed_links. -/
def persistOk (env : Env) (url : List Char) : Bool :=
  match env.fetch url with
  | .failure => false
  | .pdf finalUrl => env.pdfOk finalUrl
  | .page _ _ => env.writeOk url

/-- Specification form of the extract_links loop: keep each surviving
candidate whose URL has not been seen, first occurrence first. -/
def dedupGo (cx : Ctx) (seen : List (List Char)) :
    List (List Char × List Char) → List (List Char × List Char)
  | [] => []
  | (text, url) :: rest =>
    if survives cx (text, url) && !(seen.contains url) then
      (text, url) :: dedupGo cx (seen ++ [url]) rest
    else dedupGo cx seen rest

/-- A context with no blocked domains, no excluded texts, and oracles that
report no redirects. -/
def demoCtx : Ctx :=
  ⟨[], [], fun _ => ⟨[], S "a", S "com"⟩, fun _ => Probe.response false none⟩

/-- Rendered text in which one URL appears under two anchor texts. -/
def demoContent : List Char := S "[first](http://a.com/x) and [second](http://a.com/x)"

/-- The duplicated URL of demoContent. -/
def demoUrl : List Char := S "http://a.com/x"

/-- An orchestration environment whose every fetch fails at the transport
level. -/
def demoFailEnv : Env :=
  ⟨demoCtx, fun _ => FetchR.failure, fun _ => false, fun _ => false⟩

/-- An orchestration environment whose every fetch yields a page and whose
writes succeed. -/
def demoPageEnv : Env :=
  ⟨demoCtx, fun u => FetchR.page (S "body") u, fun _ => true, fun _ => true⟩

/-- Rendered text holding one link candidate. -/
def demoContent1 : List Char := S "[t](http://a.com/x)"

/-- An anchor body holding two image children, for exercising the
one-image-versus-any-image distinction of the renderer. -/
def twoImgs : List Node :=
  [Node.elem (S "img") [(S "src", S "s1"), (S "alt", S "a1")] [],
   Node.elem (S "img") [(S "src", S "s2"), (S "alt", S "a2")] []]

/-- An anchor with an href and the two image children. -/
def twoImgAnchor : Node := Node.elem (S "a") [(S "href", S "h")] twoImgs

/-! ## Helper lemmas -/

theorem isSubOf_of_isPrefixOf_drop {e t : List Char} (i : Nat)
    (h : e.isPrefixOf (t.drop i) = true) : isSubOf e t = true := by
  induction t generalizing i with
  | nil =>
    rw [List.drop_nil] at h
    simpa [isSubOf] using h
  | cons c cs ih =>
    cases i with
    | zero =>
      rw [List.drop_zero] at h
      simp [isSubOf, h]
    | succ n =>
      rw [List.drop_succ_cons] at h
      simp [isSubOf, ih n h]

theorem wbMatch_isSubOf {e t : List Char} (h : wbMatch e t = true) : isSubOf e t = true := by
  unfold wbMatch at h
  rw [List.any_eq_true] at h
  obtain ⟨i, _, hcond⟩ := h
  simp only [Bool.and_eq_true] at hcond
  exact isSubOf_of_isPrefixOf_drop i hcond.1.1

theorem any_map_eq {α β : Type} (l : List α) (g : α → β) (p : β → Bool) :
    (l.map g).any p = l.any (fun a => p (g a)) := by
  induction l with
  | nil => rfl
  | cons a l ih => simp [List.any_cons, ih]

theorem any_eq_of_forall {α : Type} (l : List α) (p q : α → Bool)
    (h : ∀ a ∈ l, p a = q a) : l.any p = l.any q := by
  induction l with
  | nil => rfl
  | cons a l ih =>
    simp only [List.any_cons, h a (List.mem_cons_self a l),
      ih (fun b hb => h b (List.mem_cons_of_mem a hb))]

theorem isWordChar_pyToLower (c : Char) : isWordChar (pyToLower c) = isWordChar c := by
  unfold pyToLower
  split <;> rfl

theorem any_word_pyLower (l : List Char) :
    (pyLower l).any isWordChar = l.any isWordChar := by
  rw [pyLower, any_map_eq]
  apply any_eq_of_forall
  intro a _
  exact isWordChar_pyToLower a

theorem not_word_of_isWs {c : Char} (h : isWs c = true) : isWordChar c = false := by
  simp only [isWs, Bool.or_eq_true, decide_eq_true_eq] at h
  rcases h with ((((h | h) | h) | h) | h) | h <;> subst h <;> decide

theorem any_word_dropWhile (l : List Char) :
    (l.dropWhile isWs).any isWordChar = l.any isWordChar := by
  induction l with
  | nil => rfl
  | cons c cs ih =>
    rw [List.dropWhile_cons]
    by_cases hw : isWs c = true
    · simp [hw, ih, List.any_cons, not_word_of_isWs hw]
    · simp [hw]

theorem any_word_pyStrip (l : List Char) :
    (pyStrip l).any isWordChar = l.any isWordChar := by
  simp only [pyStrip, rstrip, lstrip, List.any_reverse]
  rw [any_word_dropWhile, List.any_reverse, any_word_dropWhile]

theorem isSubOf_nil_left (l : List Char) : isSubOf [] l = true := by
  induction l with
  | nil => rfl
  | cons c cs ih => simp [isSubOf, ih, List.isPrefixOf]

theorem wbMatch_nil_of_word {l : List Char} (h : l.any isWordChar = true) :
    wbMatch [] l = true := by
  have hex : ∃ x ∈ l, isWordChar x = true := by
    rcases List.any_eq_true.mp h with ⟨x, hx, hpx⟩
    exact ⟨x, hx, hpx⟩
  have hlt := List.findIdx_lt_length_of_exists hex
  unfold wbMatch
  rw [List.any_eq_true]
  refine ⟨l.findIdx isWordChar, List.mem_range.mpr (Nat.lt_succ_of_lt hlt), ?_⟩
  have hword : wordAt l (l.findIdx isWordChar) = true := by
    unfold wordAt
    rw [List.getElem?_eq_getElem hlt]
    simpa using (List.findIdx_getElem (w := hlt))
  have hbnd : bnd l (l.findIdx isWordChar) = true := by
    unfold bnd
    by_cases h0 : l.findIdx isWordChar = 0
    · rw [h0] at hword ⊢
      simp [hword]
    · have hlt2 : l.findIdx isWordChar - 1 < l.findIdx isWordChar := by omega
      have hprev : wordAt l (l.findIdx isWordChar - 1) = false := by
        have hn := List.not_of_lt_findIdx hlt2
        unfold wordAt
        rw [List.getElem?_eq_getElem (Nat.lt_of_lt_of_le hlt2 (List.findIdx_le_length _))]
        simpa using hn
      simp [h0, hprev, hword]
  simp [List.isPrefixOf, hbnd]

/-- Under the default configuration, an anchor text with a word character is
always excluded: the empty phrase passes the substring test and the regex
reduces to a bare word-boundary search. -/
theorem excl_default_of_word {t : List Char} (h : t.any isWordChar = true) :
    should_exclude_link_text [[]] t = true := by
  have hword : (pyStrip (pyLower t)).any isWordChar = true := by
    rw [any_word_pyStrip, any_word_pyLower]; exact h
  have hnil : pyStrip (pyLower ([] : List Char)) = [] := rfl
  unfold should_exclude_link_text
  simp only [List.any_cons, List.any_nil, hnil, Bool.or_false]
  rw [wbMatch_nil_of_word hword, isSubOf_nil_left]
  simp

theorem findImg_eq_head (l : List Node) : findImg l = (imgAttrsPre l).head? := by
  induction l using findImg.induct with
  | case1 => simp [findImg, imgAttrsPre]
  | case2 s rest ih => simpa [findImg, imgAttrsPre] using ih
  | case3 attrs children rest => simp [findImg, imgAttrsPre]
  | case4 name attrs children rest h a ha ih =>
    rw [findImg, if_neg h, ha]
    rw [ha] at ih
    simp [imgAttrsPre, h, List.head?_append, ← ih]
  | case5 name attrs children rest h ha ih1 ih2 =>
    rw [findImg, if_neg h, ha]
    rw [ha] at ih1
    simp [imgAttrsPre, h, List.head?_append, ← ih1, ih2]

theorem mem_extractLoop {cx : Ctx} {tu : List Char × List Char}
    {L acc : List (List Char × List Char)}
    (h : tu ∈ extractLoop cx L acc) : tu ∈ acc ∨ survives cx tu = true := by
  induction L generalizing acc with
  | nil => exact Or.inl (by simpa [extractLoop] using h)
  | cons p rest ih =>
    rcases p with ⟨text, url⟩
    rw [extractLoop] at h
    by_cases h1 : startsBang text = true
    · rw [if_pos h1] at h; exact ih h
    · rw [if_neg h1] at h
      by_cases h2 : (is_valid_url url && !(should_exclude_link_text cx.excludedTexts text)) = true
      · rw [if_pos h2] at h
        by_cases h3 : (!(is_blocked_domain cx.blockedDomains (cx.ext url))) = true
        · rw [if_pos h3] at h
          by_cases h4 :
              (!(is_redirect_to_blocked_domain cx.blockedDomains cx.ext cx.probe url)) = true
          · rw [if_pos h4] at h
            by_cases h5 : ((acc.map Prod.snd).contains url) = true
            · rw [if_pos h5] at h; exact ih h
            · rw [if_neg h5] at h
              rcases ih h with hin | hs
              · rcases List.mem_append.mp hin with hin | hin
                · exact Or.inl hin
                · right
                  have htu : tu = (text, url) := by simpa using hin
                  subst htu
                  simp only [Bool.and_eq_true] at h2
                  have h1f : startsBang text = false := by
                    cases hb : startsBang text
                    · rfl
                    · exact absurd hb h1
                  simp [survives, h1f, h2.1, h2.2, h3, h4]
              · exact Or.inr hs
          · rw [if_neg h4] at h; exact ih h
        · rw [if_neg h3] at h; exact ih h
      · rw [if_neg h2] at h; exact ih h

theorem bool_eq_false {b : Bool} (h : ¬b = true) : b = false := by
  cases b
  · rfl
  · exact absurd rfl h

theorem contains_append_one (seen : List (List Char)) (v u : List Char)
    (h : (u == v) = false) : (seen ++ [v]).contains u = seen.contains u := by
  induction seen with
  | nil =>
    rw [List.nil_append, List.contains_cons, h]
    rfl
  | cons s seen ih => rw [List.cons_append, List.contains_cons, List.contains_cons, ih]

theorem extractLoop_eq_dedupGo (cx : Ctx) (L : List (List Char × List Char))
    (acc : List (List Char × List Char)) :
    extractLoop cx L acc = acc ++ dedupGo cx (acc.map Prod.snd) L := by
  induction L generalizing acc with
  | nil => simp [extractLoop, dedupGo]
  | cons p rest ih =>
    rcases p with ⟨text, url⟩
    rw [extractLoop, dedupGo]
    by_cases h1 : startsBang text = true
    · have hs : survives cx (text, url) = false := by simp [survives, h1]
      rw [if_pos h1, ih, hs]
      simp
    · have h1f : startsBang text = false := bool_eq_false h1
      rw [if_neg h1]
      by_cases h2 : (is_valid_url url && !(should_exclude_link_text cx.excludedTexts text)) = true
      · rw [if_pos h2]
        by_cases h3 : (!(is_blocked_domain cx.blockedDomains (cx.ext url))) = true
        · rw [if_pos h3]
          by_cases h4 :
              (!(is_redirect_to_blocked_domain cx.blockedDomains cx.ext cx.probe url)) = true
          · rw [if_pos h4]
            have hs : survives cx (text, url) = true := by
              simp only [Bool.and_eq_true] at h2
              simp [survives, h1f, h2.1, h2.2, h3, h4]
            cases h5 : ((acc.map Prod.snd).contains url)
            · rw [if_neg (by simp), ih, hs]
              simp [List.map_append]
            · rw [if_pos rfl, ih]
              simp
          · have hs : survives cx (text, url) = false := by
              have h4f := bool_eq_false h4
              simp only [Bool.not_eq_false] at h4f
              simp [survives, h4f]
            rw [if_neg h4, ih, hs]
            simp
        · have hs : survives cx (text, url) = false := by
            have h3f := bool_eq_false h3
            simp only [Bool.not_eq_false] at h3f
            simp [survives, h3f]
          rw [if_neg h3, ih, hs]
          simp
      · have hs : survives cx (text, url) = false := by
          have h2f := bool_eq_false h2
          rcases Bool.and_eq_false_iff.mp h2f with h2f | h2f <;> simp [survives, h2f]
        rw [if_neg h2, ih, hs]
        simp

theorem filter_dedupGo (cx : Ctx) (u : List Char) (L : List (List Char × List Char))
    (seen : List (List Char)) :
    (dedupGo cx seen L).filter (fun p => p.2 == u) =
      if seen.contains u = true then []
      else (L.filter (fun p => survives cx p && p.2 == u)).take 1 := by
  induction L generalizing seen with
  | nil => cases h : seen.contains u <;> simp [dedupGo, h]
  | cons p rest ih =>
    rcases p with ⟨t, v⟩
    by_cases hvu : v = u
    · subst hvu
      by_cases hseen : v ∈ seen
      · have hc : seen.contains v = true := by simpa using hseen
        cases hs : survives cx (t, v) <;>
          simp [dedupGo, hs, hc, ih, List.filter_cons, hseen]
      · have hc : seen.contains v = false := by simpa using hseen
        cases hs : survives cx (t, v)
        · simp [dedupGo, hs, hc, ih, List.filter_cons, hseen]
        · have hin : v ∈ seen ++ [v] := by simp
          simp [dedupGo, hs, hc, ih, List.filter_cons, hseen, hin]
    · have hbne : (v == u) = false := by
        rw [beq_eq_false_iff_ne]
        exact hvu
      have hmem2 : (u ∈ seen ++ [v]) ↔ u ∈ seen := by
        rw [List.mem_append]
        simp only [List.mem_singleton]
        constructor
        · rintro (h | h)
          · exact h
          · exact absurd h.symm hvu
        · exact Or.inl
      cases hs0 : (survives cx (t, v) && !(seen.contains v))
      · rcases Bool.and_eq_false_iff.mp hs0 with h | h
        · simp [dedupGo, h, ih, List.filter_cons, hbne]
        · have hv : v ∈ seen := by simpa using h
          simp [dedupGo, hv, ih, List.filter_cons, hbne]
      · simp only [Bool.and_eq_true, Bool.not_eq_true'] at hs0
        have hnotin : v ∉ seen := by
          intro hv
          rw [(by simpa using hv : seen.contains v = true)] at hs0
          exact absurd hs0.2 (by simp)
        simp [dedupGo, hs0.1, hnotin, ih, List.filter_cons, hbne, hmem2]

theorem find?_eq_filter_head {α : Type} (p : α → Bool) (l : List α) :
    l.find? p = (l.filter p).head? := by
  induction l with
  | nil => rfl
  | cons a l ih =>
    rw [List.find?_cons, List.filter_cons]
    cases h : p a
    · simp
    · simp

theorem mem_addVisited {u v : List Char} {w : List (List Char)} :
    u ∈ addVisited v w ↔ u = v ∨ u ∈ w := by
  unfold addVisited
  cases h : w.contains v
  · simp [List.mem_append, or_comm]
  · have hv : v ∈ w := by simpa using h
    simp only [if_pos rfl]
    constructor
    · exact Or.inr
    · rintro (rfl | hu)
      · exact hv
      · exact hu

theorem subset_addVisited {v : List Char} {w : List (List Char)} : w ⊆ addVisited v w := by
  intro u hu
  exact mem_addVisited.mpr (Or.inr hu)

theorem processLoop_nil (env : Env) (visited : List (List Char)) :
    processLoop env [] visited = (visited, []) := rfl

theorem processLoop_bang (env : Env) (text url : List Char)
    (rest : List (List Char × List Char)) (visited : List (List Char))
    (h : startsBang text = true) :
    processLoop env ((text, url) :: rest) visited = processLoop env rest visited := by
  rw [processLoop, if_pos h]

theorem processLoop_seen (env : Env) (text url : List Char)
    (rest : List (List Char × List Char)) (visited : List (List Char))
    (h1 : ¬startsBang text = true) (h2 : visited.contains url = true) :
    processLoop env ((text, url) :: rest) visited = processLoop env rest visited := by
  rw [processLoop, if_neg h1, if_pos h2]

theorem processLoop_fail (env : Env) (text url : List Char)
    (rest : List (List Char × List Char)) (visited : List (List Char))
    (h1 : ¬startsBang text = true) (h2 : ¬visited.contains url = true)
    (hf : env.fetch url = FetchR.failure) :
    processLoop env ((text, url) :: rest) visited =
      ((processLoop env rest visited).1, url :: (processLoop env rest visited).2) := by
  rw [processLoop, if_neg h1, if_neg h2, hf]

theorem processLoop_pdf (env : Env) (text url : List Char)
    (rest : List (List Char × List Char)) (visited : List (List Char)) (f : List Char)
    (h1 : ¬startsBang text = true) (h2 : ¬visited.contains url = true)
    (hf : env.fetch url = FetchR.pdf f) :
    processLoop env ((text, url) :: rest) visited =
      ((processLoop env rest
          (if env.pdfOk f then addVisited url visited else visited)).1,
        url :: (processLoop env rest
          (if env.pdfOk f then addVisited url visited else visited)).2) := by
  rw [processLoop, if_neg h1, if_neg h2, hf]

theorem processLoop_page (env : Env) (text url : List Char)
    (rest : List (List Char × List Char)) (visited : List (List Char)) (c f : List Char)
    (h1 : ¬startsBang text = true) (h2 : ¬visited.contains url = true)
    (hf : env.fetch url = FetchR.page c f) :
    processLoop env ((text, url) :: rest) visited =
      ((processLoop env rest
          (if env.writeOk url then addVisited url visited else visited)).1,
        url :: (processLoop env rest
          (if env.writeOk url then addVisited url visited else visited)).2) := by
  rw [processLoop, if_neg h1, if_neg h2, hf]

theorem processLoop_fetched_sub (env : Env) (cands : List (List Char × List Char))
    (visited : List (List Char)) :
    ∀ u ∈ (processLoop env cands visited).2, u ∈ cands.map Prod.snd := by
  induction cands, visited using processLoop.induct env with
  | case1 visited => intro u hu; simp [processLoop_nil] at hu
  | case2 text url rest visited h ih =>
    intro u hu
    rw [processLoop_bang env text url rest visited h] at hu
    exact List.mem_cons_of_mem _ (ih u hu)
  | case3 text url rest visited h1 h2 ih =>
    intro u hu
    rw [processLoop_seen env text url rest visited h1 h2] at hu
    exact List.mem_cons_of_mem _ (ih u hu)
  | case4 text url rest visited h1 h2 hf ih =>
    intro u hu
    rw [processLoop_fail env text url rest visited h1 h2 hf] at hu
    rcases List.mem_cons.mp hu with rfl | hu
    · simp
    · exact List.mem_cons_of_mem _ (ih u hu)
  | case5 text url rest visited h1 h2 f hf v ih =>
    intro u hu
    rw [processLoop_pdf env text url rest visited f h1 h2 hf] at hu
    rcases List.mem_cons.mp hu with rfl | hu
    · simp
    · exact List.mem_cons_of_mem _ (ih u hu)
  | case6 text url rest visited h1 h2 c f hf v ih =>
    intro u hu
    rw [processLoop_page env text url rest visited c f h1 h2 hf] at hu
    rcases List.mem_cons.mp hu with rfl | hu
    · simp
    · exact List.mem_cons_of_mem _ (ih u hu)

theorem processLoop_fetched_fresh (env : Env) (cands : List (List Char × List Char))
    (visited : List (List Char)) :
    ∀ u ∈ (processLoop env cands visited).2, u ∉ visited := by
  induction cands, visited using processLoop.induct env with
  | case1 visited => intro u hu; simp [processLoop_nil] at hu
  | case2 text url rest visited h ih =>
    intro u hu
    rw [processLoop_bang env text url rest visited h] at hu
    exact ih u hu
  | case3 text url rest visited h1 h2 ih =>
    intro u hu
    rw [processLoop_seen env text url rest visited h1 h2] at hu
    exact ih u hu
  | case4 text url rest visited h1 h2 hf ih =>
    intro u hu
    rw [processLoop_fail env text url rest visited h1 h2 hf] at hu
    rcases List.mem_cons.mp hu with rfl | hu
    · intro hin
      exact h2 (by simpa using hin)
    · exact ih u hu
  | case5 text url rest visited h1 h2 f hf v ih =>
    intro u hu
    rw [processLoop_pdf env text url rest visited f h1 h2 hf] at hu
    rcases List.mem_cons.mp hu with rfl | hu
    · intro hin
      exact h2 (by simpa using hin)
    · intro hin
      have hv : u ∉ (if env.pdfOk f = true then addVisited url visited else visited) :=
        ih u hu
      cases hok : env.pdfOk f
      · rw [hok] at hv
        simp at hv
        exact hv hin
      · rw [hok] at hv
        simp at hv
        exact hv (subset_addVisited hin)
  | case6 text url rest visited h1 h2 c f hf v ih =>
    intro u hu
    rw [processLoop_page env text url rest visited c f h1 h2 hf] at hu
    rcases List.mem_cons.mp hu with rfl | hu
    · intro hin
      exact h2 (by simpa using hin)
    · intro hin
      have hv : u ∉ (if env.writeOk url = true then addVisited url visited else visited) :=
        ih u hu
      cases hok : env.writeOk url
      · rw [hok] at hv
        simp at hv
        exact hv hin
      · rw [hok] at hv
        simp at hv
        exact hv (subset_addVisited hin)

theorem processLoop_fetched_nodup (env : Env) (cands : List (List Char × List Char))
    (visited : List (List Char)) :
    (cands.map Prod.snd).Nodup → (processLoop env cands visited).2.Nodup := by
  induction cands, visited using processLoop.induct env with
  | case1 visited => intro _; simp [processLoop_nil]
  | case2 text url rest visited hb ih =>
    intro h
    rw [processLoop_bang env text url rest visited hb]
    exact ih (List.nodup_cons.mp h).2
  | case3 text url rest visited h1 h2 ih =>
    intro h
    rw [processLoop_seen env text url rest visited h1 h2]
    exact ih (List.nodup_cons.mp h).2
  | case4 text url rest visited h1 h2 hf ih =>
    intro h
    rw [processLoop_fail env text url rest visited h1 h2 hf]
    have hh := List.nodup_cons.mp h
    refine List.nodup_cons.mpr ⟨?_, ih hh.2⟩
    intro hmem
    exact hh.1 (processLoop_fetched_sub env rest visited url hmem)
  | case5 text url rest visited h1 h2 f hf v ih =>
    intro h
    rw [processLoop_pdf env text url rest visited f h1 h2 hf]
    have hh := List.nodup_cons.mp h
    refine List.nodup_cons.mpr ⟨?_, ih hh.2⟩
    intro hmem
    exact hh.1 (processLoop_fetched_sub env rest _ url hmem)
  | case6 text url rest visited h1 h2 c f hf v ih =>
    intro h
    rw [processLoop_page env text url rest visited c f h1 h2 hf]
    have hh := List.nodup_cons.mp h
    refine List.nodup_cons.mpr ⟨?_, ih hh.2⟩
    intro hmem
    exact hh.1 (processLoop_fetched_sub env rest _ url hmem)

theorem or_mem_cons_ne {α : Type} {u url : α} {visited rec2 : List α} {P : Prop}
    (huv : ¬u = url) :
    (u ∈ visited ∨ (u ∈ rec2 ∧ P)) ↔ (u ∈ visited ∨ (u ∈ url :: rec2 ∧ P)) := by
  simp [List.mem_cons, huv]

theorem processLoop_visited_iff (env : Env) (cands : List (List Char × List Char))
    (visited : List (List Char)) (u : List Char) :
    u ∈ (processLoop env cands visited).1 ↔
      u ∈ visited ∨ (u ∈ (processLoop env cands visited).2 ∧ persistOk env u = true) := by
  induction cands, visited using processLoop.induct env with
  | case1 visited => simp [processLoop_nil]
  | case2 text url rest visited hb ih =>
    rw [processLoop_bang env text url rest visited hb]
    exact ih
  | case3 text url rest visited h1 h2 ih =>
    rw [processLoop_seen env text url rest visited h1 h2]
    exact ih
  | case4 text url rest visited h1 h2 hf ih =>
    rw [processLoop_fail env text url rest visited h1 h2 hf]
    dsimp only
    rw [ih]
    by_cases huv : u = url
    · subst huv
      have hpo : persistOk env u = false := by simp [persistOk, hf]
      simp [hpo]
    · exact or_mem_cons_ne huv
  | case5 text url rest visited h1 h2 f hf v ih =>
    have hveq : v = if env.pdfOk f = true then addVisited url visited else visited := rfl
    rw [hveq] at ih
    rw [processLoop_pdf env text url rest visited f h1 h2 hf]
    dsimp only
    have hpo : persistOk env url = env.pdfOk f := by simp [persistOk, hf]
    cases hok : env.pdfOk f
    · rw [hok] at ih hpo
      simp only [Bool.false_eq_true, if_false] at ih ⊢
      rw [ih]
      by_cases huv : u = url
      · subst huv
        simp [hpo]
      · exact or_mem_cons_ne huv
    · rw [hok] at ih hpo
      simp only [if_true] at ih ⊢
      rw [ih]
      by_cases huv : u = url
      · subst huv
        simp only [mem_addVisited, hpo, List.mem_cons]
        tauto
      · rw [mem_addVisited]
        simp only [huv, false_or]
        exact or_mem_cons_ne huv
  | case6 text url rest visited h1 h2 c f hf v ih =>
    have hveq : v = if env.writeOk url = true then addVisited url visited else visited := rfl
    rw [hveq] at ih
    rw [processLoop_page env text url rest visited c f h1 h2 hf]
    dsimp only
    have hpo : persistOk env url = env.writeOk url := by simp [persistOk, hf]
    cases hok : env.writeOk url
    · rw [hok] at ih hpo
      simp only [Bool.false_eq_true, if_false] at ih ⊢
      rw [ih]
      by_cases huv : u = url
      · subst huv
        simp [hpo]
      · exact or_mem_cons_ne huv
    · rw [hok] at ih hpo
      simp only [if_true] at ih ⊢
      rw [ih]
      by_cases huv : u = url
      · subst huv
        simp only [mem_addVisited, hpo, List.mem_cons]
        tauto
      · rw [mem_addVisited]
        simp only [huv, false_or]
        exact or_mem_cons_ne huv

theorem dedupGo_urls_fresh (cx : Ctx) (L : List (List Char × List Char)) :
    ∀ seen, ((dedupGo cx seen L).map Prod.snd).Nodup ∧
      (∀ u ∈ (dedupGo cx seen L).map Prod.snd, u ∉ seen) := by
  induction L with
  | nil => intro seen; simp [dedupGo]
  | cons p rest ih =>
    intro seen
    rcases p with ⟨t, v⟩
    rw [dedupGo]
    cases hc : (survives cx (t, v) && !(seen.contains v))
    · exact ih seen
    · simp only [Bool.and_eq_true, Bool.not_eq_true'] at hc
      have hnotin : v ∉ seen := by
        intro hv
        rw [(by simpa using hv : seen.contains v = true)] at hc
        exact absurd hc.2 (by simp)
      rcases ih (seen ++ [v]) with ⟨hnd, hfresh⟩
      rw [if_pos rfl]
      constructor
      · rw [List.map_cons]
        refine List.nodup_cons.mpr ⟨?_, hnd⟩
        intro hmem
        exact hfresh v hmem (by simp)
      · intro u hu
        rw [List.map_cons] at hu
        rcases List.mem_cons.mp hu with rfl | hu2
        · exact hnotin
        · intro hin
          exact hfresh u hu2 (List.mem_append.mpr (Or.inl hin))

theorem isEmpty_false_of_ne {l : List Char} (h : l ≠ []) : l.isEmpty = false := by
  cases l
  · exact absurd rfl h
  · rfl

theorem digitsDotDigits_sound {t d1 d2 : List Char}
    (h : digitsDotDigits t = some (d1, d2)) :
    d1 ≠ [] ∧ d2 ≠ [] ∧ (∀ c ∈ d1, c.isDigit = true) ∧ (∀ c ∈ d2, c.isDigit = true) := by
  unfold digitsDotDigits at h
  split at h
  case isTrue => simp at h
  case isFalse hne =>
    split at h
    case h_1 r heq =>
      split at h
      case isTrue => simp at h
      case isFalse hne2 =>
        simp only [Option.some.injEq, Prod.mk.injEq] at h
        obtain ⟨h1, h2⟩ := h
        subst h1
        subst h2
        refine ⟨?_, ?_, ?_, ?_⟩
        · intro he
          rw [he] at hne
          exact hne rfl
        · intro he
          rw [he] at hne2
          exact hne2 rfl
        · intro c hc
          exact List.mem_takeWhile_imp hc
        · intro c hc
          exact List.mem_takeWhile_imp hc
    case h_2 => simp at h

theorem arxivTryHere_sound {t : List Char} {d1 d2 : List Char}
    (h : arxivTryHere t = some (d1, d2)) :
    d1 ≠ [] ∧ d2 ≠ [] ∧ (∀ c ∈ d1, c.isDigit = true) ∧ (∀ c ∈ d2, c.isDigit = true) := by
  unfold arxivTryHere at h
  rcases h1 : (matchWild (S "arxiv.org/abs/") t >>= digitsDotDigits) with _ | v
  · rw [h1] at h
    have hB : (matchWild (S "arxiv.org/pdf/") t >>= digitsDotDigits) = some (d1, d2) := h
    rcases h2 : matchWild (S "arxiv.org/pdf/") t with _ | rem <;> rw [h2] at hB
    · simp at hB
    · exact digitsDotDigits_sound hB
  · rw [h1] at h
    have hv : (some v : Option (List Char × List Char)) = some (d1, d2) := h
    have hveq : v = (d1, d2) := by injection hv
    subst hveq
    rcases h2 : matchWild (S "arxiv.org/abs/") t with _ | rem <;> rw [h2] at h1
    · simp at h1
    · exact digitsDotDigits_sound h1

theorem arxivSearch_sound {t : List Char} {d1 d2 : List Char}
    (h : arxivSearch t = some (d1, d2)) :
    d1 ≠ [] ∧ d2 ≠ [] ∧ (∀ c ∈ d1, c.isDigit = true) ∧ (∀ c ∈ d2, c.isDigit = true) := by
  induction t with
  | nil => simp [arxivSearch] at h
  | cons c cs ih =>
    rw [arxivSearch] at h
    rcases h1 : arxivTryHere (c :: cs) with _ | v <;> rw [h1] at h
    · exact ih h
    · have hv : (some v : Option (List Char × List Char)) = some (d1, d2) := h
      have hveq : v = (d1, d2) := by injection hv
      subst hveq
      exact arxivTryHere_sound h1

theorem matchWild_cons_ne {p c : Char} {ps cs : List Char} (h1 : ¬p = '.') (h2 : ¬p = c) :
    matchWild (p :: ps) (c :: cs) = none := by
  rw [matchWild]
  simp [h1, h2]

theorem arxivTryHere_none_of_ne {c : Char} (cs : List Char) (h : ¬c = 'a') :
    arxivTryHere (c :: cs) = none := by
  unfold arxivTryHere
  rw [show (S "arxiv.org/abs/") = 'a' :: (S "rxiv.org/abs/") from rfl,
    show (S "arxiv.org/pdf/") = 'a' :: (S "rxiv.org/pdf/") from rfl,
    matchWild_cons_ne (by decide) (fun e => h e.symm),
    matchWild_cons_ne (by decide) (fun e => h e.symm)]
  rfl

theorem arxivSearch_cons_ne {c : Char} (cs : List Char) (h : ¬c = 'a') :
    arxivSearch (c :: cs) = arxivSearch cs := by
  rw [arxivSearch, arxivTryHere_none_of_ne cs h]
  rfl

theorem matchWild_pdf_self (T : List Char) :
    matchWild (S "arxiv.org/pdf/") (S "arxiv.org/pdf/" ++ T) = some T := rfl

theorem matchWild_abs_pdf (T : List Char) :
    matchWild (S "arxiv.org/abs/") (S "arxiv.org/pdf/" ++ T) = none := rfl

theorem ddd_canonical (d1 d2 : List Char) (h1 : d1 ≠ []) (h2 : ∀ c ∈ d1, c.isDigit = true)
    (h3 : d2 ≠ []) (h4 : ∀ c ∈ d2, c.isDigit = true) :
    digitsDotDigits (d1 ++ '.' :: (d2 ++ S ".pdf")) = some (d1, d2) := by
  have htake1 : (d1 ++ '.' :: (d2 ++ S ".pdf")).takeWhile Char.isDigit = d1 := by
    rw [List.takeWhile_append_of_pos h2, List.takeWhile_cons_of_neg (by decide),
      List.append_nil]
  have hdrop1 : (d1 ++ '.' :: (d2 ++ S ".pdf")).dropWhile Char.isDigit =
      '.' :: (d2 ++ S ".pdf") := by
    rw [List.dropWhile_append_of_pos h2, List.dropWhile_cons_of_neg (by decide)]
  have htake2 : (d2 ++ S ".pdf").takeWhile Char.isDigit = d2 := by
    rw [List.takeWhile_append_of_pos h4,
      show List.takeWhile Char.isDigit (S ".pdf") = [] from by decide, List.append_nil]
  unfold digitsDotDigits
  rw [htake1, if_neg (by rw [isEmpty_false_of_ne h1]; simp), hdrop1]
  show (if (List.takeWhile Char.isDigit (d2 ++ S ".pdf")).isEmpty = true then none
    else some (d1, List.takeWhile Char.isDigit (d2 ++ S ".pdf"))) = some (d1, d2)
  rw [htake2, if_neg (by rw [isEmpty_false_of_ne h3]; simp)]

theorem scan_mkPdf (d1 d2 : List Char) (h1 : d1 ≠ []) (h2 : ∀ c ∈ d1, c.isDigit = true)
    (h3 : d2 ≠ []) (h4 : ∀ c ∈ d2, c.isDigit = true) :
    arxivSearch (S "https://arxiv.org/pdf/" ++ (d1 ++ '.' :: d2) ++ S ".pdf") =
      some (d1, d2) := by
  have hshape : S "https://arxiv.org/pdf/" ++ (d1 ++ '.' :: d2) ++ S ".pdf" =
      'h' :: 't' :: 't' :: 'p' :: 's' :: ':' :: '/' :: '/' ::
        (S "arxiv.org/pdf/" ++ (d1 ++ '.' :: (d2 ++ S ".pdf"))) := by
    rw [List.append_assoc (S "https://arxiv.org/pdf/") (d1 ++ '.' :: d2) (S ".pdf"),
      List.append_assoc d1 ('.' :: d2) (S ".pdf")]
    rfl
  rw [hshape]
  rw [arxivSearch_cons_ne _ (by decide), arxivSearch_cons_ne _ (by decide),
    arxivSearch_cons_ne _ (by decide), arxivSearch_cons_ne _ (by decide),
    arxivSearch_cons_ne _ (by decide), arxivSearch_cons_ne _ (by decide),
    arxivSearch_cons_ne _ (by decide), arxivSearch_cons_ne _ (by decide)]
  rw [show S "arxiv.org/pdf/" ++ (d1 ++ '.' :: (d2 ++ S ".pdf")) =
    'a' :: (S "rxiv.org/pdf/" ++ (d1 ++ '.' :: (d2 ++ S ".pdf"))) from rfl]
  rw [arxivSearch]
  rw [show 'a' :: (S "rxiv.org/pdf/" ++ (d1 ++ '.' :: (d2 ++ S ".pdf"))) =
    S "arxiv.org/pdf/" ++ (d1 ++ '.' :: (d2 ++ S ".pdf")) from rfl]
  unfold arxivTryHere
  rw [matchWild_pdf_self, matchWild_abs_pdf]
  have hd := ddd_canonical d1 d2 h1 h2 h3 h4
  show (digitsDotDigits (d1 ++ '.' :: (d2 ++ S ".pdf")) <|>
    arxivSearch (S "rxiv.org/pdf/" ++ (d1 ++ '.' :: (d2 ++ S ".pdf")))) = some (d1, d2)
  rw [hd]
  rfl

theorem netloc_mkPdf (d1 d2 : List Char) :
    (pyUrlparse (S "https://arxiv.org/pdf/" ++ (d1 ++ '.' :: d2) ++ S ".pdf")).2 =
      S "arxiv.org" := rfl

theorem transform_cases (u : List Char) :
    transform_arxiv_url u = (u, none) ∨
    ∃ d1 d2, d1 ≠ [] ∧ d2 ≠ [] ∧ (∀ c ∈ d1, c.isDigit = true) ∧
      (∀ c ∈ d2, c.isDigit = true) ∧
      transform_arxiv_url u =
        (S "https://arxiv.org/pdf/" ++ (d1 ++ '.' :: d2) ++ S ".pdf",
          some (d1 ++ '.' :: d2)) := by
  unfold transform_arxiv_url
  by_cases hsub : isSubOf (S "arxiv.org") (pyUrlparse u).2 = true
  · rw [if_pos hsub]
    rcases hs : arxivSearch u with _ | ⟨d1, d2⟩
    · left
      rfl
    · right
      obtain ⟨h1, h3, h2, h4⟩ := arxivSearch_sound hs
      exact ⟨d1, d2, h1, h3, h2, h4, rfl⟩
  · rw [if_neg hsub]
    left
    rfl

/-! ## Claim theorems -/

/-- C3: for every parsed tree, html_to_markdown is a total function (so no
exception escapes the renderer) whose result has no run of three or more
consecutive newline characters and carries no leading or trailing
whitespace. -/
theorem c3_render_normalized (root : Node) :
    containsNNN (html_to_markdown root) = false ∧
    pyStrip (html_to_markdown root) = html_to_markdown root :=
  ⟨containsNNN_pyStrip (containsNNN_subnn _), pyStrip_idem _⟩

/-- C5: when the same URL appears in two or more surviving link constructs of
the rendered text, extract_links returns exactly one candidate for that URL,
carrying the anchor text of its first surviving occurrence; later duplicates
are silently dropped and do not replace the first. -/
theorem c5_dedup_first_wins (cx : Ctx) (content u : List Char)
    (h : 2 ≤ ((findLinks none content).filter
      (fun p => survives cx p && p.2 == u)).length) :
    ∃ t, (extract_links cx content).filter (fun p => p.2 == u) = [(t, u)] ∧
      (findLinks none content).find? (fun p => survives cx p && p.2 == u) = some (t, u) := by
  have he : extract_links cx content = dedupGo cx [] (findLinks none content) := by
    rw [extract_links, extractLoop_eq_dedupGo]
    rfl
  rw [he, filter_dedupGo, if_neg (by simp)]
  rcases hf : (findLinks none content).filter (fun p => survives cx p && p.2 == u)
    with _ | ⟨q, qs⟩
  · rw [hf] at h
    simp at h
  · rcases q with ⟨t, v⟩
    have hmem : (t, v) ∈ (findLinks none content).filter
        (fun p => survives cx p && p.2 == u) := by
      rw [hf]
      exact List.mem_cons_self _ _
    have hpred := List.of_mem_filter hmem
    simp only [Bool.and_eq_true] at hpred
    have hv : v = u := by simpa using hpred.2
    subst hv
    refine ⟨t, rfl, ?_⟩
    rw [find?_eq_filter_head, hf]
    rfl

unseal findLinks in
/-- Witness for C5: a concrete rendered text with one URL under two anchor
texts keeps exactly the first candidate. -/
theorem c5_dedup_first_wins_witness :
    ∃ t, (extract_links demoCtx demoContent).filter (fun p => p.2 == demoUrl) =
        [(t, demoUrl)] ∧
      (findLinks none demoContent).find? (fun p => survives demoCtx p && p.2 == demoUrl) =
        some (t, demoUrl) :=
  c5_dedup_first_wins demoCtx demoContent demoUrl (by decide)

/-- C6 as stated is false at this input: the hostname evilarxiv.org is not
the known preprint host, yet the URL is transformed and even rewritten onto
arxiv.org, because the source only checks that arxiv.org occurs as a
substring of the netloc. -/
theorem c6_claim_cex :
    (pyUrlparse (S "https://evilarxiv.org/abs/1234.5678")).2 = S "evilarxiv.org" ∧
    transform_arxiv_url (S "https://evilarxiv.org/abs/1234.5678") =
      (S "https://arxiv.org/pdf/1234.5678.pdf", some (S "1234.5678")) ∧
    transform_arxiv_url (S "https://evilarxiv.org/abs/1234.5678") ≠
      (S "https://evilarxiv.org/abs/1234.5678", none) := by
  refine ⟨by decide, by decide, by decide⟩

/-- C6 amended: the abstract URL maps to the canonical PDF URL together with
its identifier, and every URL whose hostname does not contain arxiv.org as a
substring is returned unchanged with no identifier; host matching is
substring containment, so other hostnames containing arxiv.org are also
transformed. -/
theorem c6_arxiv_transform :
    transform_arxiv_url (S "https://arxiv.org/abs/2101.00001") =
      (S "https://arxiv.org/pdf/2101.00001.pdf", some (S "2101.00001")) ∧
    (∀ url, isSubOf (S "arxiv.org") (pyUrlparse url).2 = false →
      transform_arxiv_url url = (url, none)) := by
  refine ⟨by decide, ?_⟩
  intro url h
  unfold transform_arxiv_url
  rw [h]
  simp

/-- Witness for C6: a host without the substring is left unchanged. -/
theorem c6_arxiv_transform_witness :
    transform_arxiv_url (S "https://example.com/abs/12.34") =
      (S "https://example.com/abs/12.34", none) :=
  c6_arxiv_transform.2 (S "https://example.com/abs/12.34") (by decide)

/-- C7 as stated is false at this input: with the phrase c++ configured, the
anchor text with surrounding spaces is excluded by the code, which trims it
before the equality test, while the claim's untrimmed predicate does not
match it. -/
theorem c7_claim_cex :
    should_exclude_link_text [S "c++"] (S " c++ ") = true ∧
    claimExcludedByText [S "c++"] (S " c++ ") = false := by
  constructor <;> decide

/-- C7 amended: should_exclude_link_text matches configured phrases
case-insensitively and as whole words or phrases after trimming surrounding
whitespace from both the anchor text and the phrase; the phrase ad does not
match the anchor advanced but matches Sponsored Ad. -/
theorem c7_whole_word_exclusion :
    (∀ texts text, should_exclude_link_text texts text = claimExcludedByTextTrimmed texts text) ∧
    should_exclude_link_text [S "ad"] (S "advanced") = false ∧
    should_exclude_link_text [S "ad"] (S "Sponsored Ad") = true := by
  refine ⟨fun texts text => ?_, by decide, by decide⟩
  unfold should_exclude_link_text claimExcludedByTextTrimmed
  apply any_eq_of_forall
  intro e _
  cases hw : wbMatch (pyStrip (pyLower e)) (pyStrip (pyLower text))
  · simp [hw]
  · simp [hw, wbMatch_isSubOf hw]

/-- C10: transform_arxiv_url is idempotent: applying the transform to the URL
component of its own result returns that same URL with the same identifier;
in particular a URL already in canonical PDF form maps to itself. -/
theorem c10_transform_idempotent (u : List Char) :
    transform_arxiv_url ((transform_arxiv_url u).1) = transform_arxiv_url u := by
  rcases transform_cases u with h | ⟨d1, d2, h1, h3, h2, h4, h⟩
  · rw [h]
    exact h
  · rw [h]
    unfold transform_arxiv_url
    rw [netloc_mkPdf d1 d2]
    rw [if_pos (by decide), scan_mkPdf d1 d2 h1 h2 h3 h4]

/-- C8: when the redirect probe fails at the transport level,
is_redirect_to_blocked_domain returns false (fail open) rather than raising,
and it returns true only when the probe response is a redirect whose
Location target is a blocked domain. -/
theorem c8_redirect_fail_open (blocked : List (List Char))
    (ext : List Char → Extracted) (probe : List Char → Probe) (url : List Char) :
    (probe url = Probe.failure → is_redirect_to_blocked_domain blocked ext probe url = false) ∧
    (is_redirect_to_blocked_domain blocked ext probe url = true →
      ∃ loc, probe url = Probe.response true (some loc) ∧
        is_blocked_domain blocked (ext loc) = true) := by
  constructor
  · intro h
    simp [is_redirect_to_blocked_domain, h]
  · intro h
    unfold is_redirect_to_blocked_domain at h
    rcases hp : probe url with _ | ⟨isR, loc⟩ <;> rw [hp] at h
    · simp at h
    · cases isR
      · simp at h
      · rcases loc with _ | l
        · simp at h
        · exact ⟨l, rfl, by simpa using h⟩

unseal findLinks in
/-- C1 as stated is false at this run: the only candidate's fetch fails at
the transport level and the URL is fetched, yet afterwards the visited set is
still empty, so the URL was not recorded and a later process call sharing the
set would fetch it again. -/
theorem c1_claim_cex :
    (process_markdown_links demoFailEnv demoContent1 []).2 = [S "http://a.com/x"] ∧
    (process_markdown_links demoFailEnv demoContent1 []).1 = [] := by
  constructor <;> decide

/-- C1 amended: in process_markdown_links a URL already in the visited set is
never fetched, within one call no URL is fetched twice, and a URL is added to
the visited set exactly when its processing persisted a file (PDF downloaded
or page written); on rejection or transport failure it is not added and may
be fetched again by a later call. -/
theorem c1_visited_only_on_success (env : Env) (content : List Char)
    (visited : List (List Char)) :
    (∀ u ∈ (process_markdown_links env content visited).2, u ∉ visited) ∧
    (process_markdown_links env content visited).2.Nodup ∧
    (∀ u, u ∈ (process_markdown_links env content visited).1 ↔
      u ∈ visited ∨ (u ∈ (process_markdown_links env content visited).2 ∧
        persistOk env u = true)) := by
  refine ⟨?_, ?_, ?_⟩
  · exact processLoop_fetched_fresh env _ visited
  · apply processLoop_fetched_nodup
    have he : extract_links env.cx content = dedupGo env.cx [] (findLinks none content) := by
      rw [extract_links, extractLoop_eq_dedupGo]
      rfl
    rw [he]
    exact (dedupGo_urls_fresh env.cx (findLinks none content) []).1
  · exact fun u => processLoop_visited_iff env _ visited u

unseal findLinks in
/-- Witness for C1: with a succeeding page fetch, the candidate URL ends up
in the visited set. -/
theorem c1_visited_only_on_success_witness :
    S "http://a.com/x" ∈ (process_markdown_links demoPageEnv demoContent1 []).1 :=
  ((c1_visited_only_on_success demoPageEnv demoContent1 []).2.2 (S "http://a.com/x")).mpr
    (Or.inr ⟨by decide, by decide⟩)

/-- C2 as stated is false at this anchor: it has two image children, not
exactly one, so the claim requires the wrapped recursive rendering of the
children, but the code emits the linked-image construct of the first image. -/
theorem c2_claim_cex :
    imgChildCount twoImgs = 2 ∧
    processTag twoImgAnchor = S "[![a1](s1)](h)" ∧
    '[' :: processNodes twoImgs ++ S "](h)" = S "[![a1](s1)![a2](s2)](h)" ∧
    processTag twoImgAnchor ≠ '[' :: processNodes twoImgs ++ S "](h)" := by
  refine ⟨by decide, ?_, ?_, ?_⟩ <;>
    simp [twoImgAnchor, twoImgs, processTag, processNodes, findImg, attrGet, attrGetD,
      showOptHref, S]

/-- C2 amended: for every anchor node the renderer emits the linked-image
construct exactly when the anchor has at least one image descendant, taking
the first such image in document order; otherwise it renders the children
recursively and wraps them in the link exactly when href is present and
non-empty. -/
theorem c2_anchor_rendering (attrs : List (List Char × List Char)) (children : List Node) :
    processTag (Node.elem (S "a") attrs children) =
      match (imgAttrsPre children).head? with
      | some imgAttrs =>
        S "[![" ++ attrGetD imgAttrs (S "alt") ++ S "](" ++ attrGetD imgAttrs (S "src") ++
          S ")](" ++ showOptHref (attrGet attrs (S "href")) ++ S ")"
      | none =>
        if truthy (attrGet attrs (S "href")) then
          '[' :: processNodes children ++ S "](" ++ (attrGet attrs (S "href")).getD [] ++ S ")"
        else processNodes children := by
  rw [processTag, if_pos rfl, findImg_eq_head]

/-- C4 as stated is false at this input: with the blocked entry .example.com
(a leading dot) and hostname example.com (no subdomain), the code joins the
empty subdomain onto the registrable domain and so checks .example.com and
blocks, though no suffix of the hostname is in the blocked set. -/
theorem c4_claim_cex :
    is_blocked_domain [S ".example.com"] ⟨[], S "example", S "com"⟩ = true ∧
    claimBlockedDomain [S ".example.com"] ⟨[], S "example", S "com"⟩ = false := by
  constructor <;> decide

/-- C4 amended: is_blocked_domain returns true exactly when the registrable
domain or a suffix of the hostname ending at it is in the blocked set, or,
for a hostname with no subdomain, when the blocked set holds the registrable
domain prefixed with a dot; the hierarchical examples of the claim hold. -/
theorem c4_blocked_hierarchy (blocked : List (List Char)) (e : Extracted) :
    (is_blocked_domain blocked e =
      (claimBlockedDomain blocked e ||
        (e.subdomain.isEmpty && blocked.contains ('.' :: (e.domain ++ '.' :: e.suffix))))) ∧
    is_blocked_domain [S "example.com"] ⟨S "a", S "example", S "com"⟩ = true ∧
    is_blocked_domain [S "example.com"] ⟨S "b.a", S "example", S "com"⟩ = true ∧
    is_blocked_domain [S "example.com"] ⟨[], S "notexample", S "com"⟩ = false := by
  refine ⟨?_, by decide, by decide, by decide⟩
  rcases e with ⟨sub, dom0, suf⟩
  rcases sub with _ | ⟨c, cs⟩
  · simp [is_blocked_domain, claimBlockedDomain, pySplitOn, joinWith, List.range_succ]
  · simp [is_blocked_domain, claimBlockedDomain]
    rw [any_map_eq]

/-- C9: with the unset environment variable the excluded-text list is a
single empty string; under that default any anchor text holding a word
character is excluded, the empty anchor text is excluded, and extract_links
never returns a candidate whose anchor text holds a word character. -/
theorem c9_default_excludes_all (t content : List Char)
    (blocked : List (List Char)) (ext : List Char → Extracted) (probe : List Char → Probe) :
    defaultExcludedLinkTexts = [[]] ∧
    (t.any isWordChar = true → should_exclude_link_text defaultExcludedLinkTexts t = true) ∧
    should_exclude_link_text defaultExcludedLinkTexts [] = true ∧
    (∀ tu ∈ extract_links ⟨defaultExcludedLinkTexts, blocked, ext, probe⟩ content,
      tu.1.any isWordChar = false) := by
  have hd : defaultExcludedLinkTexts = [[]] := by decide
  refine ⟨hd, ?_, by decide, ?_⟩
  · intro h
    rw [hd]
    exact excl_default_of_word h
  · intro tu htu
    rcases mem_extractLoop htu with hin | hs
    · simp at hin
    · cases hw : tu.1.any isWordChar
      · rfl
      · exfalso
        simp only [survives, hd, Bool.and_eq_true, Bool.not_eq_true'] at hs
        rw [excl_default_of_word hw] at hs
        exact absurd hs.1.1.2 (by simp)

/-- Witness for C9: the default configuration excludes a concrete anchor. -/
theorem c9_default_excludes_all_witness :
    should_exclude_link_text defaultExcludedLinkTexts (S "Click here") = true :=
  (c9_default_excludes_all (S "Click here") [] [] (fun _ => ⟨[], [], []⟩)
    (fun _ => Probe.failure)).2.1 (by decide)

/-- Witness for C8 at a concrete failing probe. -/
theorem c8_redirect_fail_open_witness :
    is_redirect_to_blocked_domain [S "bad.com"] (fun _ => ⟨[], S "a", S "com"⟩)
      (fun _ => Probe.failure) (S "http://a.com/x") = false :=
  (c8_redirect_fail_open [S "bad.com"] (fun _ => ⟨[], S "a", S "com"⟩)
    (fun _ => Probe.failure) (S "http://a.com/x")).1 rfl

end Gmailmd
